import Mathlib

/-!
Shallow embedding of the core of `src/main.py` of the
cli-spotify-album-ranking-tool repository: the interactive binary-insertion
ranking engine, the percentile mapper, the percentile-based score resolver
with threshold parsing, and the CSV export/import round trip.

Modelling conventions:
* Python floats are modelled as rationals (`ℚ`); arithmetic on the values the
  program manipulates (quarters, percentiles, decimal threshold literals) is
  exact in both models.
* Python's built-in `round` (round-half-to-even) is modelled by `pyRound`.
* `math.ceil (math.log2 i)` is modelled exactly by `Nat.clog 2 i`.
* The human comparison oracle (`ask_preference`) is modelled as a Boolean
  function `pref : α → α → Bool`, `pref a b = true` meaning the user answers
  `1` (prefers `a` over `b`); the global comparison counter is modelled by
  returning the number of oracle calls.
* `json.loads` / `ast.literal_eval` is an external parsing boundary; the
  decoded dict is passed to `parse_thresholds_dict` as an insertion-ordered
  association list of Python keys and values.
* Python dicts are modelled as insertion-ordered association lists with
  update-in-place / append-new semantics (`dictInsert`).
* Fallible operations (`pts[0]` on an empty list, i.e. an empty threshold
  set) are modelled with `Option`.
-/

/-- Item record mirroring the `AlbumInfo` dataclass of `src/main.py`. -/
structure AlbumInfo where
  album_id : String
  name : String
  artists : String
  url : String
  image_url : Option String
  playlist_track_titles : List String
deriving DecidableEq

/-- The `count_in_playlist` property of `AlbumInfo`. -/
def AlbumInfo.count_in_playlist (a : AlbumInfo) : ℕ :=
  a.playlist_track_titles.length

/-! ## Ranking engine (`estimate_comparisons`, `rank_albums_by_comparisons`) -/

/-- `estimate_comparisons` from `src/main.py`: `0` for `n ≤ 1`, otherwise the
sum over `i` in Python's `range(2, n+1)` of `ceil(log2 i)` (modelled exactly
by `Nat.clog 2 i`). -/
def estimate_comparisons (n : ℕ) : ℕ :=
  if n ≤ 1 then 0
  else (List.range' 2 (n - 1)).foldl (fun total i => total + Nat.clog 2 i) 0

/-- Python's `list.insert(i, x)`. -/
def insert_at {α : Type} (l : List α) (i : ℕ) (x : α) : List α :=
  l.take i ++ x :: l.drop i

/-- The binary-search loop of `rank_albums_by_comparisons`: bounds `[lo, hi)`
over the current sequence, `mid = (lo+hi)/2`, narrow `hi` to `mid` when the
oracle prefers `x` over the item at `mid`, else narrow `lo` to `mid+1`.
Returns the insertion position together with the number of oracle calls. -/
def bsearch {α : Type} (pref : α → α → Bool) (x : α) (l : List α)
    (lo hi : ℕ) : ℕ × ℕ :=
  if h : lo < hi then
    let mid := (lo + hi) / 2
    if pref x (l.getD mid x) then
      let r := bsearch pref x l lo mid
      (r.1, r.2 + 1)
    else
      let r := bsearch pref x l (mid + 1) hi
      (r.1, r.2 + 1)
  else (lo, 0)
termination_by hi - lo
decreasing_by
  all_goals omega

/-- One iteration of the insertion loop of `rank_albums_by_comparisons`:
binary-search the position of `x` in the accumulated sequence and insert it,
accumulating the oracle-call count. -/
def rank_step {α : Type} (pref : α → α → Bool) (acc : List α × ℕ) (x : α) :
    List α × ℕ :=
  let s := bsearch pref x acc.1 0 acc.1.length
  (insert_at acc.1 s.1 x, acc.2 + s.2)

/-- `rank_albums_by_comparisons` from `src/main.py`: start from the first
item, insert each subsequent item by binary search.  Returns the ordered
sequence together with the total number of oracle calls (the value of the
global comparison counter at the end of the session). -/
def rank_albums_by_comparisons {α : Type} (pref : α → α → Bool)
    (albums : List α) : List α × ℕ :=
  match albums with
  | [] => ([], 0)
  | a :: rest => rest.foldl (rank_step pref) ([a], 0)

/-! ## Quarter rounding (`round_to_quarter`) -/

/-- Python's built-in `round` to an integer: round half to even. -/
def pyRound (x : ℚ) : ℤ :=
  if x - (⌊x⌋ : ℚ) < 1 / 2 then ⌊x⌋
  else if 1 / 2 < x - (⌊x⌋ : ℚ) then ⌊x⌋ + 1
  else if ⌊x⌋ % 2 = 0 then ⌊x⌋ else ⌊x⌋ + 1

/-- `round_to_quarter` from `src/main.py`: `round(x * 4) / 4.0`. -/
def round_to_quarter (x : ℚ) : ℚ :=
  (pyRound (x * 4) : ℚ) / 4

/-! ## Threshold key parsing (`_percent_pat`, `_parse_key_to_frac`) -/

/-- Numeric value of a list of decimal digit characters (most significant
first), as computed by Python's `float` on the digit string. -/
def digitsVal (cs : List Char) : ℕ :=
  cs.foldl (fun a c => a * 10 + (c.toNat - 48)) 0

/-- Value of a decimal literal `ip.fp` (integral part, fractional part). -/
def fracVal (ip fp : List Char) : ℚ :=
  (digitsVal ip : ℚ) + (digitsVal fp : ℚ) / (10 : ℚ) ^ fp.length

/-- The `\s*%?\s*$` tail of the pattern `_percent_pat`. -/
def percentTail (r : List Char) : Bool :=
  match r.dropWhile Char.isWhitespace with
  | [] => true
  | '%' :: r2 => (r2.dropWhile Char.isWhitespace).isEmpty
  | _ => false

/-- Matcher for `_percent_pat = ^\s*(\d+(\.\d+)?)\s*%?\s*$` from
`src/main.py`, returning the numeric value of capture group 1 on a match.
The character classes of the pattern are disjoint, so greedy matching
coincides with the regex semantics. -/
def matchPercent (cs : List Char) : Option ℚ :=
  let s1 := cs.dropWhile Char.isWhitespace
  let ip := s1.takeWhile Char.isDigit
  let r1 := s1.dropWhile Char.isDigit
  if ip.isEmpty then none
  else
    match r1 with
    | '.' :: r2 =>
        let fp := r2.takeWhile Char.isDigit
        if fp.isEmpty then none
        else if percentTail (r2.dropWhile Char.isDigit) then
          some (fracVal ip fp)
        else none
    | _ => if percentTail r1 then some (fracVal ip []) else none

/-- A Python value appearing as a key of the user-supplied threshold dict. -/
inductive PyKey where
  | KInt (n : ℤ)
  | KFloat (q : ℚ)
  | KStr (s : String)
  | KOther
deriving DecidableEq

/-- A Python value appearing as a value of the threshold dict: either
convertible by `float` (to the rational `q`) or not. -/
inductive PyVal where
  | num (q : ℚ)
  | bad
deriving DecidableEq

/-- `_parse_key_to_frac` from `src/main.py`. -/
def parse_key_to_frac : PyKey → Option ℚ
  | .KInt n =>
      let val : ℚ := (n : ℚ)
      let v := if 1 < val then val / 100 else val
      some (min (max v 0) 1)
  | .KFloat q =>
      let v := if 1 < q then q / 100 else q
      some (min (max v 0) 1)
  | .KStr s =>
      match matchPercent s.toList with
      | none => none
      | some val =>
          let v :=
            if s.toList.any (fun c => decide (c = '%')) = true ∨ 1 < val then
              val / 100
            else val
          some (min (max v 0) 1)
  | .KOther => none

/-! ## Threshold dict parsing (`parse_thresholds_dict`) -/

/-- Python dict item assignment `out[k] = v`: update in place if the key is
present, append otherwise. -/
def dictInsert (out : List (ℚ × ℚ)) (k v : ℚ) : List (ℚ × ℚ) :=
  if out.any (fun e => decide (e.1 = k)) then
    out.map (fun e => if e.1 = k then (k, v) else e)
  else out ++ [(k, v)]

/-- Lookup in the association-list model of a Python dict. -/
def dlookup (out : List (ℚ × ℚ)) (k : ℚ) : Option ℚ :=
  (out.find? (fun e => decide (e.1 = k))).map Prod.snd

/-- The values view `out.values()` of the dict model. -/
def dictValues (out : List (ℚ × ℚ)) : List ℚ :=
  out.map Prod.snd

/-- Python's `min` over a nonempty list (`0` on the empty list, which the
program never queries). -/
def listMin : List ℚ → ℚ
  | [] => 0
  | x :: xs => xs.foldl min x

/-- Python's `max` over a nonempty list (`0` on the empty list, which the
program never queries). -/
def listMax : List ℚ → ℚ
  | [] => 0
  | x :: xs => xs.foldl max x

/-- The body of the `for k, v in data.items()` loop of
`parse_thresholds_dict`: keep the entry if the key parses and the value is
`float`-convertible, silently skip it otherwise. -/
def threshStep (out : List (ℚ × ℚ)) (kv : PyKey × PyVal) : List (ℚ × ℚ) :=
  match parse_key_to_frac kv.1, kv.2 with
  | some frac, .num score => dictInsert out frac score
  | _, _ => out

/-- The dict `out` accumulated by `parse_thresholds_dict` before the boundary
entries at `0.0` / `1.0` are manufactured. -/
def rawThresholds (data : List (PyKey × PyVal)) : List (ℚ × ℚ) :=
  data.foldl threshStep []

/-- The documented default threshold set of `parse_thresholds_dict`
(insertion order of the Python literal). -/
def defaultThresholds : List (ℚ × ℚ) :=
  [(99/100, 10), (9/10, 19/2), (3/4, 35/4), (1/4, 15/2), (0, 6)]

/-- The non-default branch of `parse_thresholds_dict`: build `out` from the
decoded dict items, fail if nothing parsed, otherwise manufacture the `0.0`
floor (minimum supplied score) and `1.0` ceiling (maximum score) if absent. -/
def parse_thresholds_data (data : List (PyKey × PyVal)) :
    Except String (List (ℚ × ℚ)) :=
  let out := rawThresholds data
  if out.isEmpty then .error ("Could not parse any valid thresholds.")
  else
    let out1 :=
      if (dlookup out 0).isSome then out
      else dictInsert out 0 (listMin (dictValues out))
    let out2 :=
      if (dlookup out1 1).isSome then out1
      else dictInsert out1 1 (listMax (dictValues out1))
    .ok out2

/-- Python's `str.strip` (as a character list). -/
def pyStrip (s : String) : List Char :=
  ((s.toList.dropWhile Char.isWhitespace).reverse.dropWhile
    Char.isWhitespace).reverse

/-- `parse_thresholds_dict` from `src/main.py`.  `s` is the raw user string;
`data` is the dict decoded from it by the `json.loads` /
`ast.literal_eval` boundary (unused when `s` is blank, in which case the
documented default is returned directly). -/
def parse_thresholds_dict (s : String) (data : List (PyKey × PyVal)) :
    Except String (List (ℚ × ℚ)) :=
  if (pyStrip s).isEmpty then .ok defaultThresholds
  else parse_thresholds_data data

/-! ## Percentile mapper (`percentile_from_rank`) -/

/-- `percentile_from_rank` from `src/main.py`. -/
def percentile_from_rank (rank_index n : ℕ) : ℚ :=
  if n ≤ 1 then 1
  else 1 - (rank_index : ℚ) / ((n : ℚ) - 1)

/-! ## Score resolver (`assign_scores_percentile`) -/

/-- Lexicographic comparison of `(percentile, score)` pairs, as used by
Python's `sorted` on 2-tuples. -/
def lexLeB (a b : ℚ × ℚ) : Bool :=
  decide (a.1 < b.1) || (decide (a.1 = b.1) && decide (a.2 ≤ b.2))

/-- Insert into a lex-sorted list of pairs. -/
def sortedInsert (a : ℚ × ℚ) : List (ℚ × ℚ) → List (ℚ × ℚ)
  | [] => [a]
  | b :: l => if lexLeB a b then a :: b :: l else b :: sortedInsert a l

/-- Python's `sorted` on a list of `(percentile, score)` 2-tuples.  The lex
order on pairs is total and antisymmetric, so the sorted result is the unique
lex-sorted permutation, independently of the sorting algorithm. -/
def sortPairs : List (ℚ × ℚ) → List (ℚ × ℚ)
  | [] => []
  | a :: l => sortedInsert a (sortPairs l)

/-- The bracketing loop of `assign_scores_percentile`: walk the ascending
points, remembering the last point with percentile `≤ p` as `lo`, and stop at
the first point with percentile `≥ p`, taking it as `hi`. -/
def bracket (p : ℚ) : List (ℚ × ℚ) → ℚ × ℚ → ℚ × ℚ → (ℚ × ℚ) × (ℚ × ℚ)
  | [], lo, hi => (lo, hi)
  | pt :: rest, lo, hi =>
      let lo2 := if pt.1 ≤ p then pt else lo
      if p ≤ pt.1 then (lo2, pt) else bracket p rest lo2 hi

/-- The per-album body of `assign_scores_percentile` before clamping and
rounding: bracket the percentile `p` in the sorted points `first :: rest`
(`lo` initialised to `pts[0]`, `hi` to `pts[-1]`), then apply the step or
interpolation policy. -/
def resolve_raw (first : ℚ × ℚ) (rest : List (ℚ × ℚ)) (p : ℚ)
    (interpolate : Bool) : ℚ :=
  let pts := first :: rest
  let lh := bracket p pts first (rest.getLastD first)
  let lo := lh.1
  let hi := lh.2
  if interpolate = false ∨ lo.1 = hi.1 then
    if lo.1 ≤ p then lo.2 else hi.2
  else
    lo.2 + (if hi.1 = lo.1 then 0 else (p - lo.1) / (hi.1 - lo.1)) *
      (hi.2 - lo.2)

/-- The score resolver of `assign_scores_percentile` for one percentile:
raw bracketed score, then `max(clamp_min, min(clamp_max, score))`, then
optional quarter rounding. -/
def resolve_score (first : ℚ × ℚ) (rest : List (ℚ × ℚ)) (p : ℚ)
    (clamp_min clamp_max : ℚ) (quarter_round interpolate : Bool) : ℚ :=
  let score := resolve_raw first rest p interpolate
  let clamped := max clamp_min (min clamp_max score)
  if quarter_round then round_to_quarter clamped else clamped

/-- `assign_scores_percentile` from `src/main.py`: empty input gives an empty
result; otherwise the threshold percentiles are clamped to `[0,1]` and lex
sorted, and each album at rank index `r` is mapped to
`(r+1, album, resolve_score … (percentile_from_rank r n) …)`.  `none` models
the `IndexError` the source raises on `pts[0]` when the threshold set is
empty (only reachable with a nonempty album list). -/
def assign_scores_percentile (ranked : List AlbumInfo)
    (thresholds : List (ℚ × ℚ)) (clamp_min clamp_max : ℚ)
    (quarter_round interpolate : Bool) :
    Option (List (ℕ × AlbumInfo × ℚ)) :=
  match ranked with
  | [] => some []
  | _ :: _ =>
      match sortPairs (thresholds.map (fun t => (max 0 (min 1 t.1), t.2))) with
      | [] => none
      | first :: rest =>
          some (ranked.enum.map (fun ri =>
            (ri.1 + 1, ri.2,
              resolve_score first rest
                (percentile_from_rank ri.1 ranked.length)
                clamp_min clamp_max quarter_round interpolate)))

/-! ## CSV export / import (`maybe_export_csv`, `load_albums_from_csv`) -/

/-- One row of the CSV schema written by `maybe_export_csv`. -/
structure CsvRow where
  rank : String
  score : String
  album : String
  artists : String
  tracks_in_playlist : String
  album_url : String
  album_id : String
deriving DecidableEq

/-- Decimal representation of a natural number, as written by Python's
`str`. -/
def natToDec (n : ℕ) : List Char :=
  if n = 0 then ['0']
  else (Nat.digits 10 n).reverse.map (fun d => Char.ofNat (48 + d))

/-- Python's `int` on the strings the exporter emits: defined on nonempty
all-digit strings, `ValueError` (`none`) otherwise. -/
def decToNat (cs : List Char) : Option ℕ :=
  if cs ≠ [] ∧ cs.all Char.isDigit then
    some (Nat.ofDigits 10 ((cs.map (fun c => c.toNat - 48)).reverse))
  else none

/-- The rows written by `maybe_export_csv` for the scored results, in list
order.  `fmtScore` is the runtime's float formatting of the score cell
(ignored by the importer). -/
def maybe_export_csv_rows (fmtScore : ℚ → String)
    (rows : List (ℕ × AlbumInfo × ℚ)) : List CsvRow :=
  rows.map (fun t =>
    { rank := String.mk (natToDec t.1)
      score := fmtScore t.2.2
      album := t.2.1.name
      artists := t.2.1.artists
      tracks_in_playlist := String.mk (natToDec t.2.1.count_in_playlist)
      album_url := t.2.1.url
      album_id := t.2.1.album_id })

/-- `load_albums_from_csv` from `src/main.py`, at the row level (the file
I/O and `csv.DictReader` decoding are the persistence boundary): rebuild an
`AlbumInfo` per row, synthesising placeholder track titles from the stored
count; a `ValueError` on the count leaves the titles empty. -/
def load_albums_from_csv (rows : List CsvRow) : List AlbumInfo :=
  rows.map (fun r =>
    let base : AlbumInfo :=
      { album_id := r.album_id
        name := r.album
        artists := r.artists
        url := r.album_url
        image_url := none
        playlist_track_titles := [] }
    match decToNat r.tracks_in_playlist.toList with
    | some n =>
        { base with
          playlist_track_titles :=
            (List.range n).map (fun i => ("Track ") ++ String.mk (natToDec (i + 1))) }
    | none => base)

/-- A concrete item used by witnesses and counterexamples. -/
def testAlbum : AlbumInfo :=
  { album_id := ("a1")
    name := ("Album One")
    artists := ("Artist")
    url := ("http://example.invalid")
    image_url := none
    playlist_track_titles := [] }

/-- A rational is an integer multiple of `1/4`. -/
def IsQuarterMultiple (x : ℚ) : Prop :=
  ∃ k : ℤ, x = (k : ℚ) / 4

/-! ## Helper lemmas: rounding and clamping -/

theorem floor_le_pyRound (x : ℚ) : ⌊x⌋ ≤ pyRound x := by
  unfold pyRound
  split_ifs <;> omega

theorem pyRound_le_ceil (x : ℚ) : pyRound x ≤ ⌈x⌉ := by
  unfold pyRound
  have hfc := Int.floor_le_ceil x
  split_ifs with h1 h2 h3
  · exact hfc
  · have hx : (⌊x⌋ : ℚ) < x := by linarith
    have := Int.lt_ceil.mpr hx
    omega
  · exact hfc
  · have hx : (⌊x⌋ : ℚ) < x := by
      push_neg at h1
      linarith
    have := Int.lt_ceil.mpr hx
    omega

theorem round_to_quarter_mem {a b x : ℚ} (ha : IsQuarterMultiple a)
    (hb : IsQuarterMultiple b) (hax : a ≤ x) (hxb : x ≤ b) :
    a ≤ round_to_quarter x ∧ round_to_quarter x ≤ b := by
  obtain ⟨ka, rfl⟩ := ha
  obtain ⟨kb, rfl⟩ := hb
  unfold round_to_quarter
  constructor
  · have h1 : (ka : ℚ) ≤ x * 4 := by linarith
    have h2 : ka ≤ ⌊x * 4⌋ := Int.le_floor.mpr h1
    have h3 : (ka : ℚ) ≤ (pyRound (x * 4) : ℚ) := by
      exact_mod_cast le_trans h2 (floor_le_pyRound (x * 4))
    linarith
  · have h1 : x * 4 ≤ (kb : ℚ) := by linarith
    have h2 : ⌈x * 4⌉ ≤ kb := Int.ceil_le.mpr h1
    have h3 : ((pyRound (x * 4) : ℤ) : ℚ) ≤ (kb : ℚ) := by
      exact_mod_cast le_trans (pyRound_le_ceil (x * 4)) h2
    linarith

theorem clamp_mem {cmin cmax s : ℚ} (h : cmin ≤ cmax) :
    cmin ≤ max cmin (min cmax s) ∧ max cmin (min cmax s) ≤ cmax :=
  ⟨le_max_left _ _, max_le h (min_le_left _ _)⟩

theorem clamp_degenerate {cmin cmax : ℚ} (s : ℚ) (h : cmax ≤ cmin) :
    max cmin (min cmax s) = cmin :=
  max_eq_left (le_trans (min_le_left _ _) h)

theorem resolve_score_eq (first : ℚ × ℚ) (rest : List (ℚ × ℚ))
    (p cmin cmax : ℚ) (qr interp : Bool) :
    resolve_score first rest p cmin cmax qr interp =
      if qr then
        round_to_quarter (max cmin (min cmax (resolve_raw first rest p interp)))
      else max cmin (min cmax (resolve_raw first rest p interp)) := rfl

theorem sortedInsert_length (a : ℚ × ℚ) (l : List (ℚ × ℚ)) :
    (sortedInsert a l).length = l.length + 1 := by
  induction l with
  | nil => rfl
  | cons b t ih =>
      unfold sortedInsert
      split_ifs <;> simp [ih]

theorem sortPairs_length (l : List (ℚ × ℚ)) :
    (sortPairs l).length = l.length := by
  induction l with
  | nil => rfl
  | cons a t ih => simp [sortPairs, sortedInsert_length, ih]

/-! ## Claim C1 -/

/-- C1 (amended): for every threshold point set, every query percentile `p`
(including `p` outside `[0,1]`), and every clamp range with
`clamp_min < clamp_max`, the score produced by the resolver of
`assign_scores_percentile` lies in `[clamp_min, clamp_max]` with quarter
rounding disabled; with quarter rounding enabled the same holds provided
`clamp_min` and `clamp_max` are integer multiples of `0.25` (as the defaults
`6.0` and `10.0` are).  Without that proviso quarter rounding, applied after
clamping, can leave the range (see the counterexample). -/
theorem resolve_score_in_clamp_range (first : ℚ × ℚ) (rest : List (ℚ × ℚ))
    (p clamp_min clamp_max : ℚ) (interpolate : Bool)
    (h : clamp_min < clamp_max) :
    (clamp_min ≤ resolve_score first rest p clamp_min clamp_max false interpolate ∧
      resolve_score first rest p clamp_min clamp_max false interpolate ≤ clamp_max) ∧
    (IsQuarterMultiple clamp_min → IsQuarterMultiple clamp_max →
      clamp_min ≤ resolve_score first rest p clamp_min clamp_max true interpolate ∧
      resolve_score first rest p clamp_min clamp_max true interpolate ≤ clamp_max) := by
  have hc := clamp_mem (s := resolve_raw first rest p interpolate) h.le
  constructor
  · rw [resolve_score_eq]
    exact hc
  · intro hqa hqb
    rw [resolve_score_eq]
    exact round_to_quarter_mem hqa hqb hc.1 hc.2

/-- Witness for C1: default clamp range `[6,10]` (both quarter multiples),
single threshold point `(0,6)`, out-of-range percentile `p = 2`. -/
theorem resolve_score_in_clamp_range_witness :
    (6 : ℚ) < 10 ∧
    ((6 : ℚ) ≤ resolve_score (0, 6) [] 2 6 10 false false ∧
      resolve_score (0, 6) [] 2 6 10 false false ≤ 10) ∧
    ((6 : ℚ) ≤ resolve_score (0, 6) [] 2 6 10 true false ∧
      resolve_score (0, 6) [] 2 6 10 true false ≤ 10) := by
  have h := resolve_score_in_clamp_range (0, 6) [] 2 6 10 false (by norm_num)
  exact ⟨by norm_num, h.1,
    h.2 ⟨24, by norm_num⟩ ⟨40, by norm_num⟩⟩

/-- Counterexample for C1 as stated: with thresholds `{0.0: 7.0}`,
`clamp_min = 6.0625`, `clamp_max = 6.09375` (a valid range,
`clamp_min < clamp_max`) and quarter rounding enabled, the single album
(percentile `1.0`) receives the score `6.0`, which is *below* `clamp_min`:
the clamped score `6.09375` is quarter-rounded to `6.0` after clamping. -/
theorem assign_scores_quarter_round_leaves_range :
    assign_scores_percentile [testAlbum] [(0, 7)] (97/16) (195/32) true false =
      some [(1, testAlbum, 6)] ∧
    (97 : ℚ)/16 < 195/32 ∧ ¬((97 : ℚ)/16 ≤ 6) := by
  refine ⟨?_, by norm_num, by norm_num⟩
  norm_num [assign_scores_percentile, sortPairs, sortedInsert, lexLeB,
    resolve_score, resolve_raw, bracket, round_to_quarter, pyRound,
    percentile_from_rank, List.enum]

/-! ## Claim C8 -/

/-- C8: given a degenerate clamp range (`clamp_max ≤ clamp_min`) the score
resolver does not crash: the clamping step `max(clamp_min, min(clamp_max, s))`
forces the result to `clamp_min` for every percentile (the final output being
`round_to_quarter clamp_min` when quarter rounding is on), and
`assign_scores_percentile` still returns a result for every album list
whenever the threshold set is nonempty. -/
theorem resolve_score_degenerate_clamp (first : ℚ × ℚ) (rest : List (ℚ × ℚ))
    (p clamp_min clamp_max : ℚ) (interpolate : Bool)
    (h : clamp_max ≤ clamp_min) :
    resolve_score first rest p clamp_min clamp_max false interpolate = clamp_min ∧
    resolve_score first rest p clamp_min clamp_max true interpolate =
      round_to_quarter clamp_min ∧
    (∀ (ranked : List AlbumInfo) (thresholds : List (ℚ × ℚ)) (qr : Bool),
      thresholds ≠ [] →
      (assign_scores_percentile ranked thresholds clamp_min clamp_max
        qr interpolate).isSome = true) := by
  refine ⟨?_, ?_, ?_⟩
  · rw [resolve_score_eq, clamp_degenerate _ h]
    simp
  · rw [resolve_score_eq, clamp_degenerate _ h]
    simp
  · intro ranked thresholds qr hne
    cases ranked with
    | nil => rfl
    | cons a ranked' =>
        have hlen : (sortPairs (thresholds.map
            (fun t => (max 0 (min 1 t.1), t.2)))).length = thresholds.length := by
          rw [sortPairs_length, List.length_map]
        rcases hS : sortPairs (thresholds.map (fun t => (max 0 (min 1 t.1), t.2)))
          with _ | ⟨f, r⟩
        · rw [hS] at hlen
          exact absurd (List.length_eq_zero.mp hlen.symm) hne
        · unfold assign_scores_percentile
          rw [hS]
          rfl

/-- Witness for C8: degenerate clamp range `clamp_min = 7`, `clamp_max = 5`. -/
theorem resolve_score_degenerate_clamp_witness :
    (5 : ℚ) ≤ 7 ∧
    resolve_score (0, 9) [] (1/2) 7 5 false false = 7 ∧
    resolve_score (0, 9) [] (1/2) 7 5 true false = round_to_quarter 7 ∧
    (assign_scores_percentile [testAlbum] [(1/2, 9)] 7 5 true false).isSome = true := by
  have h := resolve_score_degenerate_clamp (0, 9) [] (1/2) 7 5 false (by norm_num)
  exact ⟨by norm_num, h.1, h.2.1,
    h.2.2 [testAlbum] [(1/2, 9)] true (by simp)⟩

/-! ## Claim C5 -/

/-- C5: with the default threshold set (as returned by
`parse_thresholds_dict` on a blank configuration string), clamp range
`[6, 10]`, quarter rounding on and step (non-interpolating) mode, the score
resolver maps percentile `1.0` to `10.0`, `0.95` to `9.5`, `0.5` to `7.5`
and `0.0` to `6.0`.  The first conjunct fixes the sorted point list the
resolver receives inside `assign_scores_percentile`. -/
theorem default_thresholds_step_scores :
    parse_thresholds_dict ("") [] = .ok defaultThresholds ∧
    sortPairs (defaultThresholds.map (fun t => (max 0 (min 1 t.1), t.2))) =
      [(0, 6), (1/4, 15/2), (3/4, 35/4), (9/10, 19/2), (99/100, 10)] ∧
    resolve_score (0, 6) [(1/4, 15/2), (3/4, 35/4), (9/10, 19/2), (99/100, 10)]
      1 6 10 true false = 10 ∧
    resolve_score (0, 6) [(1/4, 15/2), (3/4, 35/4), (9/10, 19/2), (99/100, 10)]
      (19/20) 6 10 true false = 19/2 ∧
    resolve_score (0, 6) [(1/4, 15/2), (3/4, 35/4), (9/10, 19/2), (99/100, 10)]
      (1/2) 6 10 true false = 15/2 ∧
    resolve_score (0, 6) [(1/4, 15/2), (3/4, 35/4), (9/10, 19/2), (99/100, 10)]
      0 6 10 true false = 6 := by
  refine ⟨rfl, ?_, ?_, ?_, ?_, ?_⟩
  · norm_num [defaultThresholds, sortPairs, sortedInsert, lexLeB]
  all_goals
    norm_num [resolve_score, resolve_raw, bracket, round_to_quarter, pyRound]

/-! ## Claim C6 -/

/-- C6: `percentile_from_rank i n` equals `1.0` whenever `n ≤ 1` and
`1 - i/(n-1)` otherwise; for `n = 5` the indices `0..4` map to
`1, 3/4, 1/2, 1/4, 0`; and for fixed `n` the function is monotonically
non-increasing in the rank index. -/
theorem percentile_from_rank_spec :
    (∀ i n : ℕ, n ≤ 1 → percentile_from_rank i n = 1) ∧
    (∀ i n : ℕ, 2 ≤ n →
      percentile_from_rank i n = 1 - (i : ℚ) / ((n : ℚ) - 1)) ∧
    (percentile_from_rank 0 5 = 1 ∧ percentile_from_rank 1 5 = 3/4 ∧
      percentile_from_rank 2 5 = 1/2 ∧ percentile_from_rank 3 5 = 1/4 ∧
      percentile_from_rank 4 5 = 0) ∧
    (∀ n i j : ℕ, i ≤ j →
      percentile_from_rank j n ≤ percentile_from_rank i n) := by
  refine ⟨?_, ?_, ?_, ?_⟩
  · intro i n h
    simp [percentile_from_rank, h]
  · intro i n h
    rw [percentile_from_rank, if_neg (by omega)]
  · refine ⟨?_, ?_, ?_, ?_, ?_⟩ <;> norm_num [percentile_from_rank]
  · intro n i j hij
    unfold percentile_from_rank
    split_ifs with h
    · exact le_refl _
    · have h2 : (2 : ℚ) ≤ (n : ℚ) := by exact_mod_cast (by omega : 2 ≤ n)
      have hpos : (0 : ℚ) < (n : ℚ) - 1 := by linarith
      have hij' : (i : ℚ) ≤ (j : ℚ) := by exact_mod_cast hij
      have hd : (i : ℚ) / ((n : ℚ) - 1) ≤ (j : ℚ) / ((n : ℚ) - 1) := by
        gcongr
      linarith

/-- Witness for C6 at concrete inputs. -/
theorem percentile_from_rank_spec_witness :
    (1 : ℕ) ≤ 1 ∧ percentile_from_rank 0 1 = 1 ∧
    (2 : ℕ) ≤ 21 ∧ percentile_from_rank 2 21 = 1 - (2 : ℚ) / ((21 : ℚ) - 1) ∧
    (2 : ℕ) ≤ 3 ∧ percentile_from_rank 3 5 ≤ percentile_from_rank 2 5 := by
  have h := percentile_from_rank_spec
  exact ⟨by decide, h.1 0 1 (by decide), by decide, h.2.1 2 21 (by decide),
    by decide, h.2.2.2 5 2 3 (by decide)⟩

/-! ## Claim C7 -/

/-- The clamped key fraction `min(max(v, 0.0), 1.0)` lies in `[0, 1]`. -/
theorem clamped01_mem (v : ℚ) : 0 ≤ min (max v 0) 1 ∧ min (max v 0) 1 ≤ 1 :=
  ⟨le_min (le_max_right _ _) zero_le_one, min_le_right _ _⟩

/-- C7: the string `"90%"`, the integer `90` and the float `0.9` all parse
to the fraction `0.9`; generally, every accepted key whose numeric value
exceeds `1.0` is divided by `100`, and every parsed fraction is clamped
into `[0, 1]`. -/
theorem parse_key_to_frac_shapes :
    (parse_key_to_frac (.KStr ("90%")) = some (9/10) ∧
      parse_key_to_frac (.KInt 90) = some (9/10) ∧
      parse_key_to_frac (.KFloat (9/10)) = some (9/10)) ∧
    (∀ n : ℤ, 1 < (n : ℚ) →
      parse_key_to_frac (.KInt n) = some (min (max ((n : ℚ) / 100) 0) 1)) ∧
    (∀ x : ℚ, 1 < x →
      parse_key_to_frac (.KFloat x) = some (min (max (x / 100) 0) 1)) ∧
    (∀ (s : String) (v : ℚ), matchPercent s.toList = some v → 1 < v →
      parse_key_to_frac (.KStr s) = some (min (max (v / 100) 0) 1)) ∧
    (∀ (k : PyKey) (q : ℚ), parse_key_to_frac k = some q → 0 ≤ q ∧ q ≤ 1) := by
  refine ⟨⟨?_, ?_, ?_⟩, ?_, ?_, ?_, ?_⟩
  · have h1 : matchPercent (String.toList ("90%")) =
        some (fracVal ['9', '0'] []) := rfl
    have hd : digitsVal ['9', '0'] = 90 := by decide
    have he : digitsVal [] = 0 := rfl
    have hm : matchPercent (String.toList ("90%")) = some 90 := by
      rw [h1]
      norm_num [fracVal, hd, he]
    have ha : List.any (String.toList ("90%"))
        (fun c => decide (c = '%')) = true := rfl
    simp only [parse_key_to_frac, hm, ha]
    norm_num
  · norm_num [parse_key_to_frac]
  · norm_num [parse_key_to_frac]
  · intro n hn
    simp only [parse_key_to_frac]
    rw [if_pos hn]
  · intro x hx
    simp only [parse_key_to_frac]
    rw [if_pos hx]
  · intro s v hm hv
    simp only [parse_key_to_frac, hm]
    rw [if_pos (Or.inr hv)]
  · intro k q h
    cases k with
    | KInt n =>
        simp only [parse_key_to_frac, Option.some.injEq] at h
        exact h ▸ clamped01_mem _
    | KFloat x =>
        simp only [parse_key_to_frac, Option.some.injEq] at h
        exact h ▸ clamped01_mem _
    | KStr s =>
        simp only [parse_key_to_frac] at h
        rcases hm : matchPercent s.toList with _ | val
        · rw [hm] at h
          cases h
        · rw [hm] at h
          simp only [Option.some.injEq] at h
          exact h ▸ clamped01_mem _
    | KOther => cases h

/-- Witness for C7 at concrete inputs. -/
theorem parse_key_to_frac_shapes_witness :
    ((1 : ℚ) < ((90 : ℤ) : ℚ) ∧
      parse_key_to_frac (.KInt 90) = some (min (max (((90 : ℤ) : ℚ) / 100) 0) 1)) ∧
    ((1 : ℚ) < 5 ∧
      parse_key_to_frac (.KFloat 5) = some (min (max ((5 : ℚ) / 100) 0) 1)) ∧
    (0 ≤ (9 : ℚ)/10 ∧ (9 : ℚ)/10 ≤ 1) := by
  have h := parse_key_to_frac_shapes
  exact ⟨⟨by decide, h.2.1 90 (by decide)⟩, ⟨by decide, h.2.2.1 5 (by decide)⟩,
    h.2.2.2.2 (.KInt 90) (9/10) h.1.2.1⟩

/-! ## Claim C10 -/

/-- C10: numeric threshold keys always parse (to a fraction in `[0,1]`);
in particular negative numeric keys are clamped to `0.0` and kept, whereas
the equivalent negative string key `"-5"` fails the percent pattern, parses
to `none`, and is silently skipped by the threshold-dict loop of
`parse_thresholds_dict`. -/
theorem numeric_keys_kept_string_negative_skipped :
    (∀ n : ℤ, ∃ q, parse_key_to_frac (.KInt n) = some q ∧ 0 ≤ q ∧ q ≤ 1) ∧
    (∀ x : ℚ, ∃ q, parse_key_to_frac (.KFloat x) = some q ∧ 0 ≤ q ∧ q ≤ 1) ∧
    (∀ n : ℤ, n < 0 → parse_key_to_frac (.KInt n) = some 0) ∧
    (∀ x : ℚ, x < 0 → parse_key_to_frac (.KFloat x) = some 0) ∧
    parse_key_to_frac (.KStr ("-5")) = none ∧
    (∀ (pre post : List (PyKey × PyVal)) (v : PyVal),
      rawThresholds (pre ++ (.KStr ("-5"), v) :: post) =
        rawThresholds (pre ++ post)) := by
  have hstep : ∀ (out : List (ℚ × ℚ)) (v : PyVal),
      threshStep out (.KStr ("-5"), v) = out := by
    intro out v
    cases v <;> rfl
  refine ⟨?_, ?_, ?_, ?_, ?_, ?_⟩
  · intro n
    exact ⟨_, rfl, (clamped01_mem _).1, (clamped01_mem _).2⟩
  · intro x
    exact ⟨_, rfl, (clamped01_mem _).1, (clamped01_mem _).2⟩
  · intro n hn
    have hn' : (n : ℚ) < 0 := by exact_mod_cast hn
    simp only [parse_key_to_frac]
    rw [if_neg (by linarith), max_eq_right hn'.le, min_eq_left zero_le_one]
  · intro x hx
    simp only [parse_key_to_frac]
    rw [if_neg (by linarith), max_eq_right hx.le, min_eq_left zero_le_one]
  · rfl
  · intro pre post v
    unfold rawThresholds
    rw [List.foldl_append, List.foldl_cons, hstep, ← List.foldl_append]

/-- Witness for C10 at concrete inputs. -/
theorem numeric_keys_kept_string_negative_skipped_witness :
    ((-5 : ℤ) < 0 ∧ parse_key_to_frac (.KInt (-5)) = some 0) ∧
    ((-1/2 : ℚ) < 0 ∧ parse_key_to_frac (.KFloat (-1/2)) = some 0) ∧
    rawThresholds ([(.KFloat (1/2), .num 8)] ++ (.KStr ("-5"), .num 9) :: []) =
      rawThresholds ([(.KFloat (1/2), .num 8)] ++ []) := by
  have h := numeric_keys_kept_string_negative_skipped
  exact ⟨⟨by decide, h.2.2.1 (-5) (by decide)⟩,
    ⟨by norm_num, h.2.2.2.1 (-1/2) (by norm_num)⟩,
    h.2.2.2.2.2 [(.KFloat (1/2), .num 8)] [] (.num 9)⟩

/-! ## Helper lemmas: the dict model -/

theorem find?_map_update_of_any {k v : ℚ} :
    ∀ {t : List (ℚ × ℚ)}, t.any (fun e => decide (e.1 = k)) = true →
    (t.map (fun e => if e.1 = k then (k, v) else e)).find?
      (fun e => decide (e.1 = k)) = some (k, v) := by
  intro t
  induction t with
  | nil => simp
  | cons e t ih =>
      intro h
      by_cases he : e.1 = k
      · simp only [List.map_cons, if_pos he]
        rw [List.find?_cons_of_pos]
        simp
      · simp only [List.map_cons, if_neg he]
        rw [List.find?_cons_of_neg]
        · apply ih
          simpa [he] using h
        · simpa using he

theorem find?_append_of_not_any {k : ℚ} :
    ∀ {t : List (ℚ × ℚ)} (l₂ : List (ℚ × ℚ)),
    t.any (fun e => decide (e.1 = k)) = false →
    (t ++ l₂).find? (fun e => decide (e.1 = k)) =
      l₂.find? (fun e => decide (e.1 = k)) := by
  intro t
  induction t with
  | nil => simp
  | cons e t ih =>
      intro l₂ h
      simp only [List.any_cons, Bool.or_eq_false_iff] at h
      simp only [List.cons_append]
      rw [List.find?_cons_of_neg]
      · exact ih l₂ h.2
      · simp only [h.1]
        simp

theorem find?_map_update_ne {k v k' : ℚ} (hne : k' ≠ k) :
    ∀ (t : List (ℚ × ℚ)),
    (t.map (fun e => if e.1 = k then (k, v) else e)).find?
      (fun e => decide (e.1 = k')) = t.find? (fun e => decide (e.1 = k')) := by
  intro t
  induction t with
  | nil => simp
  | cons e t ih =>
      by_cases he : e.1 = k
      · simp only [List.map_cons, if_pos he]
        rw [List.find?_cons_of_neg _
              (by simp only [decide_eq_true_eq]; exact fun hh => hne hh.symm),
            List.find?_cons_of_neg _
              (by simp only [decide_eq_true_eq]; exact fun hh => hne (hh ▸ he))]
        exact ih
      · simp only [List.map_cons, if_neg he]
        by_cases he' : e.1 = k'
        · rw [List.find?_cons_of_pos _ (by simpa using he'),
            List.find?_cons_of_pos _ (by simpa using he')]
        · rw [List.find?_cons_of_neg _ (by simpa using he'),
            List.find?_cons_of_neg _ (by simpa using he')]
          exact ih

theorem find?_append_irrelevant {k' : ℚ} {b : ℚ × ℚ} (hb : ¬b.1 = k') :
    ∀ (t : List (ℚ × ℚ)),
    (t ++ [b]).find? (fun e => decide (e.1 = k')) =
      t.find? (fun e => decide (e.1 = k')) := by
  intro t
  induction t with
  | nil =>
      rw [List.nil_append, List.find?_cons_of_neg _ (by simpa using hb)]
  | cons e t ih =>
      by_cases he : e.1 = k'
      · rw [List.cons_append, List.find?_cons_of_pos _ (by simpa using he),
          List.find?_cons_of_pos _ (by simpa using he)]
      · rw [List.cons_append, List.find?_cons_of_neg _ (by simpa using he),
          List.find?_cons_of_neg _ (by simpa using he)]
        exact ih

theorem dlookup_dictInsert_self (out : List (ℚ × ℚ)) (k v : ℚ) :
    dlookup (dictInsert out k v) k = some v := by
  unfold dictInsert dlookup
  split_ifs with h
  · rw [find?_map_update_of_any h]
    rfl
  · have h' : out.any (fun e => decide (e.1 = k)) = false := by
      cases hx : out.any (fun e => decide (e.1 = k))
      · rfl
      · exact absurd hx h
    rw [find?_append_of_not_any _ h',
      List.find?_cons_of_pos _ (by simp)]
    rfl

theorem dlookup_dictInsert_ne (out : List (ℚ × ℚ)) (k v k' : ℚ)
    (hne : k' ≠ k) :
    dlookup (dictInsert out k v) k' = dlookup out k' := by
  unfold dictInsert dlookup
  split_ifs with h
  · rw [find?_map_update_ne hne]
  · rw [find?_append_irrelevant (b := (k, v))
      (by simpa using fun hh => hne hh.symm)]

theorem dlookup_isSome_eq_any (out : List (ℚ × ℚ)) (k : ℚ) :
    (dlookup out k).isSome = out.any (fun e => decide (e.1 = k)) := by
  induction out with
  | nil => rfl
  | cons e t ih =>
      by_cases he : e.1 = k
      · unfold dlookup
        rw [List.find?_cons_of_pos]
        · simp [he]
        · simpa using he
      · unfold dlookup
        rw [List.find?_cons_of_neg]
        · unfold dlookup at ih
          simp [ih, he]
        · simpa using he

theorem dictInsert_of_absent (out : List (ℚ × ℚ)) (k v : ℚ)
    (h : dlookup out k = none) : dictInsert out k v = out ++ [(k, v)] := by
  unfold dictInsert
  rw [if_neg]
  intro ha
  rw [← dlookup_isSome_eq_any, h] at ha
  simp at ha

theorem foldl_min_le_init (xs : List ℚ) : ∀ x : ℚ, xs.foldl min x ≤ x := by
  induction xs with
  | nil => exact fun x => le_refl x
  | cons y ys ih =>
      intro x
      calc (y :: ys).foldl min x = ys.foldl min (min x y) := rfl
        _ ≤ min x y := ih _
        _ ≤ x := min_le_left _ _

theorem init_le_foldl_max (xs : List ℚ) : ∀ x : ℚ, x ≤ xs.foldl max x := by
  induction xs with
  | nil => exact fun x => le_refl x
  | cons y ys ih =>
      intro x
      calc x ≤ max x y := le_max_left _ _
        _ ≤ ys.foldl max (max x y) := ih _
        _ = (y :: ys).foldl max x := rfl

theorem listMax_append_listMin {l : List ℚ} (h : l ≠ []) :
    listMax (l ++ [listMin l]) = listMax l := by
  cases l with
  | nil => exact absurd rfl h
  | cons x xs =>
      show (xs ++ [listMin (x :: xs)]).foldl max x = xs.foldl max x
      rw [List.foldl_append]
      show max (xs.foldl max x) (listMin (x :: xs)) = xs.foldl max x
      apply max_eq_left
      calc listMin (x :: xs) = xs.foldl min x := rfl
        _ ≤ x := foldl_min_le_init _ _
        _ ≤ xs.foldl max x := init_le_foldl_max _ _

/-! ## Claim C2 -/

/-- C2 (amended): for every *non-blank* configuration string accepted by
`parse_thresholds_dict`, the returned threshold map contains an entry with
key `0.0` and an entry with key `1.0`, and when these boundary entries are
manufactured (absent from the parsed input) they carry the minimum resp.
maximum of the supplied scores.  The blank configuration string, however,
returns the documented default set directly, which contains a `0.0` entry
but *no* `1.0` entry (its highest key is `0.99`); see the counterexample. -/
theorem parse_thresholds_boundary_entries (s : String)
    (data : List (PyKey × PyVal)) (out : List (ℚ × ℚ))
    (hok : parse_thresholds_dict s data = .ok out)
    (hne : (pyStrip s).isEmpty = false) :
    (dlookup out 0).isSome = true ∧ (dlookup out 1).isSome = true ∧
    (dlookup (rawThresholds data) 0 = none →
      dlookup out 0 = some (listMin (dictValues (rawThresholds data)))) ∧
    (dlookup (rawThresholds data) 1 = none →
      dlookup out 1 = some (listMax (dictValues (rawThresholds data)))) := by
  unfold parse_thresholds_dict at hok
  rw [hne] at hok
  simp only [Bool.false_eq_true, if_false] at hok
  unfold parse_thresholds_data at hok
  by_cases hempty : (rawThresholds data).isEmpty = true
  · rw [if_pos hempty] at hok
    cases hok
  · rw [if_neg hempty] at hok
    simp only [Except.ok.injEq] at hok
    subst hok
    have hrawne : dictValues (rawThresholds data) ≠ [] := by
      intro hh
      apply hempty
      unfold dictValues at hh
      rw [List.map_eq_nil_iff] at hh
      rw [hh]
      rfl
    by_cases h0 : (dlookup (rawThresholds data) 0).isSome = true
    · rw [if_pos h0]
      by_cases h1 : (dlookup (rawThresholds data) 1).isSome = true
      · rw [if_pos h1]
        refine ⟨h0, h1, fun hz => ?_, fun hz => ?_⟩
        · rw [hz] at h0
          cases h0
        · rw [hz] at h1
          cases h1
      · rw [if_neg h1]
        refine ⟨?_, ?_, fun hz => ?_, fun hz => ?_⟩
        · rw [dlookup_dictInsert_ne _ 1 _ 0 (by norm_num)]
          exact h0
        · rw [dlookup_dictInsert_self]
          rfl
        · rw [hz] at h0
          cases h0
        · rw [dlookup_dictInsert_self]
    · rw [if_neg h0]
      have h0n : dlookup (rawThresholds data) 0 = none := by
        cases hx : dlookup (rawThresholds data) 0
        · rfl
        · rw [hx] at h0
          exact absurd rfl h0
      have hl0 : dlookup (dictInsert (rawThresholds data) 0
          (listMin (dictValues (rawThresholds data)))) 0 =
          some (listMin (dictValues (rawThresholds data))) :=
        dlookup_dictInsert_self _ _ _
      have hl1 : dlookup (dictInsert (rawThresholds data) 0
          (listMin (dictValues (rawThresholds data)))) 1 =
          dlookup (rawThresholds data) 1 :=
        dlookup_dictInsert_ne _ 0 _ 1 (by norm_num)
      by_cases h1 : (dlookup (dictInsert (rawThresholds data) 0
          (listMin (dictValues (rawThresholds data)))) 1).isSome = true
      · rw [if_pos h1]
        refine ⟨by rw [hl0]; rfl, h1, fun hz => by rw [hl0], fun hz => ?_⟩
        rw [hl1, hz] at h1
        cases h1
      · rw [if_neg h1]
        have hMax : listMax (dictValues (dictInsert (rawThresholds data) 0
            (listMin (dictValues (rawThresholds data))))) =
            listMax (dictValues (rawThresholds data)) := by
          rw [dictInsert_of_absent _ _ _ h0n]
          unfold dictValues
          rw [List.map_append]
          exact listMax_append_listMin hrawne
        refine ⟨?_, ?_, fun hz => ?_, fun hz => ?_⟩
        · rw [dlookup_dictInsert_ne _ 1 _ 0 (by norm_num), hl0]
          rfl
        · rw [dlookup_dictInsert_self]
          rfl
        · rw [dlookup_dictInsert_ne _ 1 _ 0 (by norm_num), hl0]
        · rw [dlookup_dictInsert_self, hMax]

/-- Counterexample for C2 as stated: the empty configuration string is
accepted and yields the documented default set, which has *no* entry with
key `1.0` (its top key is `0.99`). -/
theorem parse_thresholds_default_missing_top :
    parse_thresholds_dict ("") [] = .ok defaultThresholds ∧
    dlookup defaultThresholds 1 = none ∧
    dlookup defaultThresholds 0 = some 6 := by
  refine ⟨rfl, ?_, ?_⟩ <;>
    norm_num [defaultThresholds, dlookup, List.find?]

/-- Witness for C2: a one-entry configuration `{0.5: 8}` manufactures both
boundary entries with the single supplied score `8`. -/
theorem parse_thresholds_boundary_entries_witness :
    (dlookup [((1:ℚ)/2, (8:ℚ)), (0, 8), (1, 8)] 0).isSome = true ∧
    (dlookup [((1:ℚ)/2, (8:ℚ)), (0, 8), (1, 8)] 1).isSome = true ∧
    dlookup [((1:ℚ)/2, (8:ℚ)), (0, 8), (1, 8)] 0 =
      some (listMin (dictValues (rawThresholds [(.KFloat (1/2), .num 8)]))) ∧
    dlookup [((1:ℚ)/2, (8:ℚ)), (0, 8), (1, 8)] 1 =
      some (listMax (dictValues (rawThresholds [(.KFloat (1/2), .num 8)]))) := by
  have h := parse_thresholds_boundary_entries ("cfg")
    [(.KFloat (1/2), .num 8)] [((1:ℚ)/2, (8:ℚ)), (0, 8), (1, 8)] ?hok ?hne
  case hok =>
    have h1 : parse_key_to_frac (.KFloat (1/2)) = some (1/2) := by
      norm_num [parse_key_to_frac]
    have h2 : rawThresholds [(.KFloat (1/2), .num 8)] = [((1:ℚ)/2, 8)] := by
      unfold rawThresholds threshStep
      rw [List.foldl_cons]
      simp only [h1]
      rfl
    unfold parse_thresholds_dict
    rw [if_neg (by simp [pyStrip])]
    unfold parse_thresholds_data
    rw [h2]
    norm_num [dlookup, dictInsert, dictValues, listMin, listMax, List.find?]
  case hne => rfl
  refine ⟨h.1, h.2.1, h.2.2.1 ?_, h.2.2.2 ?_⟩ <;>
  · have h1 : parse_key_to_frac (.KFloat (1/2)) = some (1/2) := by
      norm_num [parse_key_to_frac]
    unfold rawThresholds threshStep
    rw [List.foldl_cons]
    simp only [h1]
    norm_num [dlookup, dictInsert, List.find?]

/-! ## Claim C9 -/

theorem enc_dec_digit (d : ℕ) (hd : d < 10) :
    (Char.ofNat (48 + d)).toNat - 48 = d := by
  interval_cases d <;> rfl

theorem enc_isDigit (d : ℕ) (hd : d < 10) :
    (Char.ofNat (48 + d)).isDigit = true := by
  interval_cases d <;> rfl

/-- Decoding inverts encoding: `int(str(n)) = n` at the CSV boundary. -/
theorem decToNat_natToDec (n : ℕ) : decToNat (natToDec n) = some n := by
  by_cases h : n = 0
  · subst h
    rfl
  · unfold natToDec decToNat
    rw [if_neg h]
    have hdig : ∀ d ∈ Nat.digits 10 n, d < 10 :=
      fun d hd => Nat.digits_lt_base (by norm_num) hd
    have hne : Nat.digits 10 n ≠ [] := Nat.digits_ne_nil_iff_ne_zero.mpr h
    rw [if_pos]
    · congr 1
      rw [List.map_map]
      have hmap : ((Nat.digits 10 n).reverse.map
          ((fun c => c.toNat - 48) ∘ fun d => Char.ofNat (48 + d))) =
          (Nat.digits 10 n).reverse := by
        rw [List.map_congr_left (fun d hd => ?_), List.map_id]
        have hd10 : d < 10 := hdig d (List.mem_reverse.mp hd)
        exact enc_dec_digit d hd10
      rw [hmap, List.reverse_reverse, Nat.ofDigits_digits]
    · constructor
      · simp [hne]
      · rw [List.all_eq_true]
        intro c hc
        rw [List.mem_map] at hc
        obtain ⟨d, hd, rfl⟩ := hc
        exact enc_isDigit d (hdig d (List.mem_reverse.mp hd))

/-- C9: exporting scored results to the CSV row schema and re-importing
yields the items in the same (rank) order with the same identifying fields
and the same member (track) counts, for every score formatter the export
boundary may use. -/
theorem csv_round_trip (fmtScore : ℚ → String)
    (rows : List (ℕ × AlbumInfo × ℚ)) :
    (load_albums_from_csv (maybe_export_csv_rows fmtScore rows)).map
      (fun a => (a.album_id, a.name, a.artists, a.count_in_playlist)) =
    rows.map (fun t =>
      (t.2.1.album_id, t.2.1.name, t.2.1.artists, t.2.1.count_in_playlist)) := by
  unfold load_albums_from_csv maybe_export_csv_rows
  rw [List.map_map, List.map_map]
  apply List.map_congr_left
  intro t ht
  have hdec : decToNat (String.mk (natToDec t.2.1.count_in_playlist)).toList =
      some t.2.1.count_in_playlist := by
    have : (String.mk (natToDec t.2.1.count_in_playlist)).toList =
        natToDec t.2.1.count_in_playlist := rfl
    rw [this, decToNat_natToDec]
  simp only [Function.comp_apply, hdec]
  simp [AlbumInfo.count_in_playlist]

/-! ## Helper lemmas: the ranking engine -/

theorem insert_at_perm {α : Type} (l : List α) (i : ℕ) (x : α) :
    (insert_at l i x).Perm (x :: l) := by
  unfold insert_at
  calc (l.take i ++ x :: l.drop i).Perm (x :: (l.take i ++ l.drop i)) :=
        List.perm_middle
    _ = x :: l := by rw [List.take_append_drop]

theorem bsearch_base {α : Type} (pref : α → α → Bool) (x : α) (l : List α)
    (lo hi : ℕ) (h : ¬lo < hi) : bsearch pref x l lo hi = (lo, 0) := by
  rw [bsearch]
  rw [dif_neg h]

theorem bsearch_step {α : Type} (pref : α → α → Bool) (x : α) (l : List α)
    (lo hi : ℕ) (h : lo < hi) :
    bsearch pref x l lo hi =
      if pref x (l.getD ((lo + hi) / 2) x) then
        ((bsearch pref x l lo ((lo + hi) / 2)).1,
          (bsearch pref x l lo ((lo + hi) / 2)).2 + 1)
      else
        ((bsearch pref x l ((lo + hi) / 2 + 1) hi).1,
          (bsearch pref x l ((lo + hi) / 2 + 1) hi).2 + 1) := by
  conv_lhs => rw [bsearch]
  rw [dif_pos h]

theorem sorted_getD_le {α : Type} [LinearOrder α] :
    ∀ {l : List α}, l.Sorted (· ≤ ·) →
    ∀ (i j : ℕ) (d : α), i ≤ j → j < l.length → l.getD i d ≤ l.getD j d := by
  intro l
  induction l with
  | nil =>
      intro _ i j d _ hj
      simp at hj
  | cons a t ih =>
      intro hs i j d hij hj
      cases i with
      | zero =>
          cases j with
          | zero => exact le_refl _
          | succ j' =>
              rw [List.getD_cons_zero, List.getD_cons_succ]
              have hj' : j' < t.length := by simpa using hj
              have hmem : t.getD j' d ∈ t := by
                rw [List.getD_eq_getElem t d hj']
                exact List.getElem_mem hj'
              exact (List.sorted_cons.mp hs).1 _ hmem
      | succ i' =>
          cases j with
          | zero => omega
          | succ j' =>
              rw [List.getD_cons_succ, List.getD_cons_succ]
              exact ih (List.sorted_cons.mp hs).2 i' j' d (by omega)
                (by simpa using hj)

/-- Invariant of the binary-search loop: starting from bounds `[lo, hi]`
with everything left of `lo` at most `x` and everything from `hi` on at
least `x`, the returned position keeps both properties and stays inside
`[lo, hi]`. -/
theorem bsearch_pos_spec {α : Type} [LinearOrder α] (pref : α → α → Bool)
    (hpref : ∀ a b, pref a b = true ↔ a < b) (x : α) {l : List α}
    (hs : l.Sorted (· ≤ ·)) :
    ∀ (fuel lo hi : ℕ), hi - lo ≤ fuel → lo ≤ hi → hi ≤ l.length →
    (∀ k, k < lo → l.getD k x ≤ x) →
    (∀ k, hi ≤ k → k < l.length → x ≤ l.getD k x) →
    lo ≤ (bsearch pref x l lo hi).1 ∧ (bsearch pref x l lo hi).1 ≤ hi ∧
    (∀ k, k < (bsearch pref x l lo hi).1 → l.getD k x ≤ x) ∧
    (∀ k, (bsearch pref x l lo hi).1 ≤ k → k < l.length →
      x ≤ l.getD k x) := by
  intro fuel
  induction fuel with
  | zero =>
      intro lo hi hfuel hlohi hhil hbelow habove
      have heq : lo = hi := by omega
      rw [bsearch_base pref x l lo hi (by omega)]
      exact ⟨le_refl _, by omega, hbelow, fun k hk hk2 => habove k (heq ▸ hk) hk2⟩
  | succ fuel ih =>
      intro lo hi hfuel hlohi hhil hbelow habove
      by_cases h : lo < hi
      · have hmidlt : (lo + hi) / 2 < hi := by omega
        have hmidge : lo ≤ (lo + hi) / 2 := by omega
        have hmidlen : (lo + hi) / 2 < l.length := lt_of_lt_of_le hmidlt hhil
        rw [bsearch_step pref x l lo hi h]
        by_cases hp : pref x (l.getD ((lo + hi) / 2) x) = true
        · rw [if_pos hp]
          have hxmid : x < l.getD ((lo + hi) / 2) x := (hpref _ _).mp hp
          have habove' : ∀ k, (lo + hi) / 2 ≤ k → k < l.length →
              x ≤ l.getD k x := by
            intro k hk hk2
            exact le_of_lt (lt_of_lt_of_le hxmid
              (sorted_getD_le hs _ k x hk hk2))
          have := ih lo ((lo + hi) / 2) (by omega) hmidge
            (le_of_lt hmidlen) hbelow habove'
          exact ⟨this.1, by omega, this.2.2.1, this.2.2.2⟩
        · rw [if_neg hp]
          have hmidx : l.getD ((lo + hi) / 2) x ≤ x := by
            by_contra hc
            exact hp ((hpref _ _).mpr (lt_of_not_le hc))
          have hbelow' : ∀ k, k < (lo + hi) / 2 + 1 → l.getD k x ≤ x := by
            intro k hk
            exact le_trans (sorted_getD_le hs k _ x (by omega) hmidlen) hmidx
          have := ih ((lo + hi) / 2 + 1) hi (by omega) (by omega) hhil
            hbelow' habove
          exact ⟨by omega, this.2.1, this.2.2.1, this.2.2.2⟩
      · rw [bsearch_base pref x l lo hi h]
        have heq : lo = hi := by omega
        exact ⟨le_refl _, by omega, hbelow,
          fun k hk hk2 => habove k (heq ▸ hk) hk2⟩

/-- Inserting `x` at a position that separates the elements `≤ x` from those
`≥ x` keeps the sequence sorted. -/
theorem insert_at_sorted {α : Type} [LinearOrder α] :
    ∀ (pos : ℕ) (l : List α) (x : α), l.Sorted (· ≤ ·) →
    (∀ k, k < pos → l.getD k x ≤ x) →
    (∀ k, pos ≤ k → k < l.length → x ≤ l.getD k x) →
    (insert_at l pos x).Sorted (· ≤ ·) := by
  intro pos
  induction pos with
  | zero =>
      intro l x hs hbelow habove
      have : insert_at l 0 x = x :: l := rfl
      rw [this, List.sorted_cons]
      refine ⟨fun b hb => ?_, hs⟩
      obtain ⟨k, hk, rfl⟩ := List.mem_iff_getElem.mp hb
      rw [← List.getD_eq_getElem l x hk]
      exact habove k (Nat.zero_le k) hk
  | succ pos ih =>
      intro l x hs hbelow habove
      cases l with
      | nil =>
          have : insert_at ([] : List α) (pos + 1) x = [x] := rfl
          rw [this]
          exact List.sorted_singleton x
      | cons a t =>
          have hrw : insert_at (a :: t) (pos + 1) x = a :: insert_at t pos x := by
            unfold insert_at
            rw [List.take_succ_cons, List.drop_succ_cons, List.cons_append]
          rw [hrw, List.sorted_cons]
          constructor
          · intro b hb
            rw [(insert_at_perm t pos x).mem_iff, List.mem_cons] at hb
            rcases hb with rfl | hb
            · have := hbelow 0 (Nat.succ_pos pos)
              simpa using this
            · exact (List.sorted_cons.mp hs).1 b hb
          · apply ih t x (List.sorted_cons.mp hs).2
            · intro k hk
              have := hbelow (k + 1) (by omega)
              simpa using this
            · intro k hk hk2
              have := habove (k + 1) (by omega) (by simpa using hk2)
              simpa using this

/-- Invariant of the insertion loop of `rank_albums_by_comparisons`: folding
the remaining items into a sorted accumulator yields a sorted permutation of
accumulator-plus-remainder. -/
theorem rank_fold_sorted_perm {α : Type} [LinearOrder α] (pref : α → α → Bool)
    (hpref : ∀ a b, pref a b = true ↔ a < b) :
    ∀ (rest : List α) (ord : List α) (c : ℕ), ord.Sorted (· ≤ ·) →
    (List.foldl (rank_step pref) (ord, c) rest).1.Perm (ord ++ rest) ∧
    (List.foldl (rank_step pref) (ord, c) rest).1.Sorted (· ≤ ·) := by
  intro rest
  induction rest with
  | nil =>
      intro ord c hs
      rw [List.foldl_nil, List.append_nil]
      exact ⟨List.Perm.refl ord, hs⟩
  | cons y rest ih =>
      intro ord c hs
      rw [List.foldl_cons]
      have hspec := bsearch_pos_spec pref hpref y hs ord.length 0 ord.length
        (by omega) (Nat.zero_le _) (le_refl _)
        (fun k hk => absurd hk (Nat.not_lt_zero k))
        (fun k hk hk2 => absurd hk2 (by omega))
      have hstep : rank_step pref (ord, c) y =
          (insert_at ord (bsearch pref y ord 0 ord.length).1 y,
            c + (bsearch pref y ord 0 ord.length).2) := rfl
      rw [hstep]
      have hsorted' : (insert_at ord (bsearch pref y ord 0 ord.length).1
          y).Sorted (· ≤ ·) :=
        insert_at_sorted _ ord y hs hspec.2.2.1 (fun k hk hk2 => hspec.2.2.2 k hk hk2)
      obtain ⟨hperm, hsort⟩ := ih _ _ hsorted'
      exact ⟨hperm.trans (((insert_at_perm ord _ y).append_right rest).trans
        List.perm_middle.symm), hsort⟩

/-! ## Claim C3 -/

/-- C3: against any oracle whose verdicts agree with a strict total order
(`pref a b = true` iff `a` is preferred over, i.e. strictly better than,
`b`; smaller = better, so best-first = ascending), `rank_albums_by_comparisons`
returns a permutation of its input sorted best-first; the empty input yields
the empty result with no oracle calls, and a singleton input makes no
oracle calls either. -/
theorem rank_albums_correct {α : Type} [LinearOrder α] (pref : α → α → Bool)
    (hpref : ∀ a b, pref a b = true ↔ a < b) (albums : List α) :
    (rank_albums_by_comparisons pref albums).1.Perm albums ∧
    (rank_albums_by_comparisons pref albums).1.Sorted (· ≤ ·) ∧
    (albums = [] → rank_albums_by_comparisons pref albums = ([], 0)) ∧
    (albums.length ≤ 1 → (rank_albums_by_comparisons pref albums).2 = 0) := by
  cases albums with
  | nil =>
      exact ⟨List.Perm.refl _, List.sorted_nil, fun _ => rfl, fun _ => rfl⟩
  | cons a rest =>
      have h := rank_fold_sorted_perm pref hpref rest [a] 0
        (List.sorted_singleton a)
      refine ⟨h.1, h.2, fun hh => by simp at hh, fun hlen => ?_⟩
      have hrest : rest = [] := by
        cases rest with
        | nil => rfl
        | cons b t => simp at hlen
      subst hrest
      rfl

/-- Witness for C3 at concrete inputs over `ℕ` with the order oracle. -/
theorem rank_albums_correct_witness :
    (rank_albums_by_comparisons (fun a b : ℕ => decide (a < b))
      [3, 1, 2]).1.Perm [3, 1, 2] ∧
    (rank_albums_by_comparisons (fun a b : ℕ => decide (a < b))
      [3, 1, 2]).1.Sorted (· ≤ ·) ∧
    rank_albums_by_comparisons (fun a b : ℕ => decide (a < b))
      ([] : List ℕ) = ([], 0) ∧
    (rank_albums_by_comparisons (fun a b : ℕ => decide (a < b)) [5]).2 = 0 := by
  have h1 := rank_albums_correct (fun a b : ℕ => decide (a < b))
    (fun a b => by simp) [3, 1, 2]
  have h2 := rank_albums_correct (fun a b : ℕ => decide (a < b))
    (fun a b => by simp) ([] : List ℕ)
  have h3 := rank_albums_correct (fun a b : ℕ => decide (a < b))
    (fun a b => by simp) [5]
  exact ⟨h1.1, h1.2.1, h2.2.2.1 rfl, h3.2.2.2 (by decide)⟩

/-! ## Helper lemmas: comparison counting -/

theorem clog_two_eq_log_succ {n : ℕ} (h : 2 ≤ n) :
    Nat.clog 2 n = Nat.log 2 (n - 1) + 1 := by
  apply le_antisymm
  · rw [← Nat.le_pow_iff_clog_le one_lt_two]
    have := Nat.lt_pow_succ_log_self one_lt_two (n - 1)
    omega
  · by_contra hc
    push_neg at hc
    have h2 : Nat.clog 2 n ≤ Nat.log 2 (n - 1) := by omega
    rw [← Nat.le_pow_iff_clog_le one_lt_two] at h2
    have h3 : 2 ^ Nat.log 2 (n - 1) ≤ n - 1 :=
      Nat.pow_log_le_self 2 (by omega)
    omega

theorem clog_two_two : Nat.clog 2 2 = 1 := by
  rw [Nat.clog_of_two_le one_lt_two (le_refl 2)]
  norm_num [Nat.clog_one_right]

theorem clog_half_step {n : ℕ} (h : 1 ≤ n) :
    Nat.clog 2 (n / 2 + 1) + 1 ≤ Nat.clog 2 (n + 1) := by
  rcases Nat.lt_or_ge n 2 with h2 | h2
  · have hn1 : n = 1 := by omega
    subst hn1
    norm_num [Nat.clog_one_right, clog_two_two]
  · have hrec : Nat.clog 2 (n + 1) = Nat.log 2 n + 1 := by
      have := clog_two_eq_log_succ (n := n + 1) (by omega)
      simpa using this
    have hrec2 : Nat.clog 2 (n / 2 + 1) = Nat.log 2 (n / 2) + 1 := by
      have := clog_two_eq_log_succ (n := n / 2 + 1) (by omega)
      simpa using this
    have hlog : Nat.log 2 (n / 2) = Nat.log 2 n - 1 := Nat.log_div_base 2 n
    have hpos : 0 < Nat.log 2 n := Nat.log_pos one_lt_two h2
    omega

/-- The binary-search loop over bounds `[lo, hi)` makes at most
`⌈log₂(hi - lo + 1)⌉` oracle calls, whatever the verdicts. -/
theorem bsearch_count_le {α : Type} (pref : α → α → Bool) (x : α)
    (l : List α) :
    ∀ (fuel lo hi : ℕ), hi - lo ≤ fuel →
    (bsearch pref x l lo hi).2 ≤ Nat.clog 2 (hi - lo + 1) := by
  intro fuel
  induction fuel with
  | zero =>
      intro lo hi hfuel
      rw [bsearch_base pref x l lo hi (by omega)]
      exact Nat.zero_le _
  | succ fuel ih =>
      intro lo hi hfuel
      by_cases h : lo < hi
      · rw [bsearch_step pref x l lo hi h]
        have hkey := clog_half_step (n := hi - lo) (by omega)
        by_cases hp : pref x (l.getD ((lo + hi) / 2) x) = true
        · rw [if_pos hp]
          have hrec := ih lo ((lo + hi) / 2) (by omega)
          have hsz : (lo + hi) / 2 - lo = (hi - lo) / 2 := by omega
          rw [hsz] at hrec
          show (bsearch pref x l lo ((lo + hi) / 2)).2 + 1 ≤ _
          omega
        · rw [if_neg hp]
          have hrec := ih ((lo + hi) / 2 + 1) hi (by omega)
          have hmono : Nat.clog 2 (hi - ((lo + hi) / 2 + 1) + 1) ≤
              Nat.clog 2 ((hi - lo) / 2 + 1) :=
            Nat.clog_mono_right 2 (by omega)
          show (bsearch pref x l ((lo + hi) / 2 + 1) hi).2 + 1 ≤ _
          omega
      · rw [bsearch_base pref x l lo hi h]
        exact Nat.zero_le _

/-- Counting invariant of the insertion loop: the accumulated comparison
count is bounded by the sum of per-insertion binary-search bounds. -/
theorem rank_fold_count_le {α : Type} (pref : α → α → Bool) :
    ∀ (rest : List α) (ord : List α) (c : ℕ),
    (List.foldl (rank_step pref) (ord, c) rest).2 ≤
      c + ∑ j ∈ Finset.range rest.length, Nat.clog 2 (ord.length + j + 1) := by
  intro rest
  induction rest with
  | nil =>
      intro ord c
      simp
  | cons y rest ih =>
      intro ord c
      rw [List.foldl_cons]
      have hstep : rank_step pref (ord, c) y =
          (insert_at ord (bsearch pref y ord 0 ord.length).1 y,
            c + (bsearch pref y ord 0 ord.length).2) := rfl
      rw [hstep]
      have hcnt : (bsearch pref y ord 0 ord.length).2 ≤
          Nat.clog 2 (ord.length + 1) := by
        have := bsearch_count_le pref y ord ord.length 0 ord.length (by omega)
        simpa using this
      have hlen : (insert_at ord (bsearch pref y ord 0 ord.length).1
          y).length = ord.length + 1 := by
        rw [(insert_at_perm ord _ y).length_eq]
        rfl
      have hih := ih (insert_at ord (bsearch pref y ord 0 ord.length).1 y)
        (c + (bsearch pref y ord 0 ord.length).2)
      rw [hlen] at hih
      have hsum : ∑ j ∈ Finset.range (rest.length + 1),
          Nat.clog 2 (ord.length + j + 1) =
          Nat.clog 2 (ord.length + 0 + 1) +
            ∑ j ∈ Finset.range rest.length,
              Nat.clog 2 (ord.length + (j + 1) + 1) := by
        rw [Finset.sum_range_succ', add_comm]
      have hcongr : ∑ j ∈ Finset.range rest.length,
          Nat.clog 2 (ord.length + (j + 1) + 1) =
          ∑ j ∈ Finset.range rest.length,
            Nat.clog 2 (ord.length + 1 + j + 1) :=
        Finset.sum_congr rfl (fun j _ => by congr 1; omega)
      rw [List.length_cons, hsum, hcongr, Nat.add_zero]
      omega

/-- The source's estimate as a `Finset` sum. -/
theorem estimate_comparisons_eq_sum (n : ℕ) :
    estimate_comparisons n =
      ∑ j ∈ Finset.range (n - 1), Nat.clog 2 (j + 2) := by
  have key : ∀ (k acc : ℕ),
      (List.range' 2 k).foldl (fun total i => total + Nat.clog 2 i) acc =
        acc + ∑ j ∈ Finset.range k, Nat.clog 2 (j + 2) := by
    intro k
    induction k with
    | zero =>
        intro acc
        simp
    | succ k ihk =>
        intro acc
        rw [List.range'_concat, List.foldl_append, ihk, List.foldl_cons,
          List.foldl_nil, Finset.sum_range_succ]
        have : 2 + 1 * k = k + 2 := by omega
        rw [this]
        omega
  unfold estimate_comparisons
  by_cases h : n ≤ 1
  · rw [if_pos h]
    have h0 : n - 1 = 0 := by omega
    rw [h0, Finset.range_zero, Finset.sum_empty]
  · rw [if_neg h, key (n - 1) 0, Nat.zero_add]

/-! ## Claim C4 -/

/-- C4 (amended): the number of verdict calls made by
`rank_albums_by_comparisons` is at most `estimate_comparisons N` (which is
`0` for `N ≤ 1` and `8` for `N = 5`), for every oracle; equality can fail —
e.g. an already-sorted 3-item input needs only 2 < 3 comparisons (see the
counterexample). -/
theorem rank_comparisons_le_estimate :
    estimate_comparisons 0 = 0 ∧ estimate_comparisons 1 = 0 ∧
    estimate_comparisons 5 = 8 ∧
    (∀ {α : Type} (pref : α → α → Bool) (albums : List α),
      (rank_albums_by_comparisons pref albums).2 ≤
        estimate_comparisons albums.length) := by
  have c2 : Nat.clog 2 2 = 1 := clog_two_two
  have c3 : Nat.clog 2 3 = 2 := by
    rw [Nat.clog_of_two_le one_lt_two (by norm_num)]
    norm_num [c2]
  have c4 : Nat.clog 2 4 = 2 := by
    rw [Nat.clog_of_two_le one_lt_two (by norm_num)]
    norm_num [c2]
  have c5 : Nat.clog 2 5 = 3 := by
    rw [Nat.clog_of_two_le one_lt_two (by norm_num)]
    norm_num [c3]
  refine ⟨rfl, rfl, ?_, ?_⟩
  · rw [estimate_comparisons_eq_sum]
    norm_num [Finset.sum_range_succ, c2, c3, c4, c5]
  · intro α pref albums
    cases albums with
    | nil => exact Nat.le_refl 0
    | cons a rest =>
        have h := rank_fold_count_le pref rest [a] 0
        rw [estimate_comparisons_eq_sum]
        have hc : ∑ j ∈ Finset.range rest.length,
            Nat.clog 2 ((1 : ℕ) + j + 1) =
            ∑ j ∈ Finset.range rest.length, Nat.clog 2 (j + 2) :=
          Finset.sum_congr rfl (fun j _ => by congr 1; omega)
        have hlen : (a :: rest).length - 1 = rest.length := by simp
        rw [hlen, ← hc]
        simpa using h

/-- Counterexample for C4 as stated: with the order oracle on the
already-sorted input `[0, 1, 2]`, the engine performs 2 comparisons while
`estimate_comparisons 3 = 3`, so the count does not *equal* the estimate. -/
theorem rank_comparisons_not_exact :
    rank_albums_by_comparisons (fun a b : ℕ => decide (a < b)) [0, 1, 2] =
      ([0, 1, 2], 2) ∧
    estimate_comparisons 3 = 3 ∧ (2 : ℕ) ≠ 3 := by
  have hb1 : bsearch (fun a b : ℕ => decide (a < b)) 1 [0] 0 1 = (1, 1) := by
    rw [bsearch_step _ _ _ _ _ (by norm_num)]
    norm_num [bsearch_base]
  have hb2 : bsearch (fun a b : ℕ => decide (a < b)) 2 [0, 1] 0 2 = (2, 1) := by
    rw [bsearch_step _ _ _ _ _ (by norm_num)]
    norm_num [bsearch_base]
  refine ⟨?_, ?_, by decide⟩
  · show List.foldl (rank_step (fun a b : ℕ => decide (a < b)))
      ([0], 0) [1, 2] = ([0, 1, 2], 2)
    rw [List.foldl_cons]
    have hs1 : rank_step (fun a b : ℕ => decide (a < b)) ([0], 0) 1 =
        ([0, 1], 1) := by
      show (insert_at [0] (bsearch (fun a b : ℕ => decide (a < b))
          1 [0] 0 1).1 1, 0 + (bsearch (fun a b : ℕ => decide (a < b))
          1 [0] 0 1).2) = ([0, 1], 1)
      rw [hb1]
      rfl
    rw [hs1, List.foldl_cons, List.foldl_nil]
    show (insert_at [0, 1] (bsearch (fun a b : ℕ => decide (a < b))
        2 [0, 1] 0 2).1 2, 1 + (bsearch (fun a b : ℕ => decide (a < b))
        2 [0, 1] 0 2).2) = ([0, 1, 2], 2)
    rw [hb2]
    rfl
  · have c2 : Nat.clog 2 2 = 1 := clog_two_two
    have c3 : Nat.clog 2 3 = 2 := by
      rw [Nat.clog_of_two_le one_lt_two (by norm_num)]
      norm_num [c2]
    rw [estimate_comparisons_eq_sum]
    norm_num [Finset.sum_range_succ, c2, c3]
